import Mathlib

/-
Verification development for the SpreadsheetLLM compression demos.

The repository has three source files:
  1. inverted_index_demo.py : an inverted value-to-address index with
     merging of consecutive same-column cell addresses into ranges;
  2. structural_anchors_demo.py : structural-anchor detection over rows
     and columns of a grid plus margin expansion and slicing;
  3. data_format_aggregation_demo.py : a rule-based cell data-type
     recognizer applied cell by cell by an aggregation step.

Cell values are modelled as optional strings (a missing value plays the
role of NaN), a grid as a rectangular table of such values, and the
Python floating comparison of a match fraction against the threshold
0.8 as the exact rational comparison 4 * length <= 5 * matches.
-/

/-! ## Cell addresses (inverted_index_demo.py) -/

/-- An Excel-style cell address, as parsed by merge_cell_ranges: the
leading column letter and the following 1-based row number. -/
structure Addr where
  col : Char
  row : Nat
deriving DecidableEq

/-- Display form of an address, as produced by create_cell_address. -/
def addrStr (a : Addr) : String := String.singleton a.col ++ toString a.row

/-- The sort order used by merge_cell_ranges: sort by column letter and
then by row number, exactly the Python tuple order on (col, row). -/
def addrLe (a b : Addr) : Prop :=
  a.col.toNat < b.col.toNat ∨ (a.col = b.col ∧ a.row ≤ b.row)

instance : DecidableRel addrLe := fun _ _ => by unfold addrLe; infer_instance

instance : IsTotal Addr addrLe := by
  constructor
  intro a b
  rcases Nat.lt_trichotomy a.col.toNat b.col.toNat with h | h | h
  · exact Or.inl (Or.inl h)
  · have hc : a.col = b.col := by
      have h2 := congrArg Char.ofNat h
      rwa [Char.ofNat_toNat, Char.ofNat_toNat] at h2
    rcases Nat.le_total a.row b.row with h2 | h2
    · exact Or.inl (Or.inr ⟨hc, h2⟩)
    · exact Or.inr (Or.inr ⟨hc.symm, h2⟩)
  · exact Or.inr (Or.inl h)

instance : IsTrans Addr addrLe := by
  constructor
  intro a b c hab hbc
  rcases hab with h1 | ⟨h1, h1r⟩ <;> rcases hbc with h2 | ⟨h2, h2r⟩
  · exact Or.inl (Nat.lt_trans h1 h2)
  · exact Or.inl (h2 ▸ h1)
  · exact Or.inl (h1 ▸ h2)
  · exact Or.inr ⟨h1.trans h2, h1r.trans h2r⟩

/-- The sort step of merge_cell_ranges (Python list.sort on the parsed
(col, row, addr) tuples). -/
def sortAddrs (l : List Addr) : List Addr := List.insertionSort addrLe l

/-- Range emission of merge_cell_ranges: a single address when the run
start equals the run end, otherwise a start:end pair. -/
def emitRun (p : Addr × Addr) : String :=
  if p.1 = p.2 then addrStr p.1 else addrStr p.1 ++ ":" ++ addrStr p.2

/-- The sweep loop of merge_cell_ranges over the sorted tail, carrying
the current run start s and current run end e.  A new run begins when
the column changes or the row is not exactly one greater than the
current run end row; otherwise the run is extended. -/
def mergeLoop : List Addr → Addr → Addr → List String
  | [], s, e => [emitRun (s, e)]
  | a :: rest, s, e =>
    if a.col ≠ e.col then emitRun (s, e) :: mergeLoop rest a a
    else if a.row = e.row + 1 then mergeLoop rest s a
    else emitRun (s, e) :: mergeLoop rest a a

/-- merge_cell_ranges from inverted_index_demo.py: sort the addresses,
sweep merging consecutive same-column rows into runs, and join the
emitted ranges with commas; the empty input yields the empty string. -/
def merge_cell_ranges (addresses : List Addr) : String :=
  match sortAddrs addresses with
  | [] => ""
  | a :: rest => String.intercalate "," (mergeLoop rest a a)

/-- The same sweep as mergeLoop, but returning each run as its pair of
run-start and run-end addresses instead of the formatted string. -/
def mergeRunsAux : List Addr → Addr → Addr → List (Addr × Addr)
  | [], s, e => [(s, e)]
  | a :: rest, s, e =>
    if a.col ≠ e.col then (s, e) :: mergeRunsAux rest a a
    else if a.row = e.row + 1 then mergeRunsAux rest s a
    else (s, e) :: mergeRunsAux rest a a

/-- Run descriptors computed by the merge_cell_ranges sweep. -/
def mergeRuns (l : List Addr) : List (Addr × Addr) :=
  match sortAddrs l with
  | [] => []
  | a :: rest => mergeRunsAux rest a a

/-- All addresses covered by one run descriptor: the inclusive row span
from the start row to the end row inside the run column. -/
def expandRun (p : Addr × Addr) : List Addr :=
  (List.range' p.1.row (p.2.row + 1 - p.1.row)).map (fun r => ⟨p.1.col, r⟩)

/-- All addresses covered by a list of run descriptors. -/
def expandRuns (l : List (Addr × Addr)) : List Addr := l.flatMap expandRun

/-! ## Grids and the inverted index (inverted_index_demo.py) -/

/-- A rectangular grid of optional text cell values; a none value models
a missing (NaN) cell.  Only coordinates with r < rows and c < cols are
meaningful. -/
structure Grid where
  rows : Nat
  cols : Nat
  cell : Nat → Nat → Option String

/-- Python whitespace test used by str.strip. -/
def isPySpace (c : Char) : Bool :=
  c = ' ' || c = '\t' || c = '\n' || c = '\r' || c = '\x0b' || c = '\x0c'

/-- str.strip of Python: drop whitespace from both ends. -/
def pyStrip (s : String) : String :=
  ⟨((s.data.dropWhile isPySpace).reverse.dropWhile isPySpace).reverse⟩

/-- Column label of a column index, the single letter scheme of the
demo dataframes (column 0 is labelled with the letter A). -/
def colLabel (c : Nat) : Char := Char.ofNat (65 + c)

/-- create_cell_address from inverted_index_demo.py: column label plus
1-based row number. -/
def create_cell_address (r c : Nat) : Addr := ⟨colLabel c, r + 1⟩

/-- The contribution of one cell to the inverted-index scan: skipped
when missing or blank after stripping, otherwise the pair of the literal
value and the cell address. -/
def cellEntry (g : Grid) (r c : Nat) : Option (String × Addr) :=
  match g.cell r c with
  | none => none
  | some s => if pyStrip s = "" then none else some (s, create_cell_address r c)

/-- One row of the row-major scan of invert_index_with_ranges. -/
def rowEntries (g : Grid) (r : Nat) : List (String × Addr) :=
  (List.range g.cols).filterMap (fun c => cellEntry g r c)

/-- The full row-major scan of invert_index_with_ranges: every non-empty
cell paired with its address, rows outermost. -/
def scanEntries (g : Grid) : List (String × Addr) :=
  (List.range g.rows).flatMap (fun r => rowEntries g r)

/-- One step of the defaultdict insertion: append the address to the
entry of the value, or append a fresh entry at the end. -/
def addToIndex (idx : List (String × List Addr)) (v : String) (a : Addr) :
    List (String × List Addr) :=
  match idx with
  | [] => [(v, [a])]
  | (w, as) :: t =>
    if w = v then (w, as ++ [a]) :: t else (w, as) :: addToIndex t v a

/-- The value-to-addresses defaultdict built by the scan loop of
invert_index_with_ranges, entries in first-occurrence order. -/
def buildIndex (g : Grid) : List (String × List Addr) :=
  (scanEntries g).foldl (fun idx p => addToIndex idx p.1 p.2) []

/-- First-match lookup in the association list. -/
def idxGet (idx : List (String × List Addr)) (v : String) : List Addr :=
  match idx with
  | [] => []
  | (w, as) :: t => if w = v then as else idxGet t v

/-- Keys of the association list. -/
def idxKeys (idx : List (String × List Addr)) : List String := idx.map Prod.fst

/-- invert_index_with_ranges from inverted_index_demo.py: the grid scan
grouped by literal value, each address list merged into ranges. -/
def invert_index_with_ranges (g : Grid) : List (String × String) :=
  (buildIndex g).map (fun p => (p.1, merge_cell_ranges p.2))

/-- The inverted index with each entry kept as run descriptors rather
than as the joined range string. -/
def invertRuns (g : Grid) : List (String × List (Addr × Addr)) :=
  (buildIndex g).map (fun p => (p.1, mergeRuns p.2))

/-- Reconstruction from the inverted index: expand every run descriptor
of every entry back to single addresses, each attributed to the value of
its entry. -/
def reconstruct (g : Grid) : List (String × Addr) :=
  (invertRuns g).flatMap (fun e => (expandRuns e.2).map (fun a => (e.1, a)))

/-- The address list the defaultdict holds for a value: the addresses
of the scan entries carrying that value, in scan order. -/
def entryAddrs (g : Grid) (v : String) : List Addr :=
  ((scanEntries g).filter (fun p => decide (p.1 = v))).map Prod.snd

/-- Losslessness of the inverted index, stated over the run-descriptor
view: the output is the range rendering of the descriptor entries;
expanding every descriptor and attributing the covered addresses to the
entry value reproduces exactly the non-empty cells; no address is
covered twice; values are not repeated across entries; and every entry
value occurs in some non-empty cell. -/
def LosslessIndex (g : Grid) : Prop :=
  invert_index_with_ranges g
      = (invertRuns g).map (fun e => (e.1, String.intercalate "," (e.2.map emitRun)))
    ∧ (∀ v a, (v, a) ∈ reconstruct g ↔
        ∃ r c, r < g.rows ∧ c < g.cols ∧ g.cell r c = some v ∧ pyStrip v ≠ "" ∧
          a = create_cell_address r c)
    ∧ ((reconstruct g).map Prod.snd).Nodup
    ∧ ((invertRuns g).map Prod.fst).Nodup
    ∧ (∀ e ∈ invertRuns g,
        ∃ r c, r < g.rows ∧ c < g.cols ∧ g.cell r c = some e.1 ∧ pyStrip e.1 ≠ "")

/-! ## Structural anchors (structural_anchors_demo.py) -/

/-- fillna of the similarity helpers: a missing value is read as the
empty string, any present value as itself. -/
def fillStr (v : Option String) : String :=
  match v with
  | none => ""
  | some s => s

/-- rows_are_similar from structural_anchors_demo.py: the two rows are
similar when the fraction of column positions with equal values (missing
read as the empty string, no trimming) reaches the threshold 0.8; the
float comparison matches / cols >= 0.8 is the exact comparison
4 * cols <= 5 * matches. -/
def rowsSimilar (g : Grid) (i1 i2 : Nat) : Bool :=
  4 * g.cols ≤
    5 * ((List.range g.cols).countP
      (fun c => decide (fillStr (g.cell i1 c) = fillStr (g.cell i2 c))))

/-- cols_are_similar from structural_anchors_demo.py, symmetric to
rowsSimilar over row positions. -/
def colsSimilar (g : Grid) (j1 j2 : Nat) : Bool :=
  4 * g.rows ≤
    5 * ((List.range g.rows).countP
      (fun r => decide (fillStr (g.cell r j1) = fillStr (g.cell r j2))))

/-- Row-similarity as the specification words it, for comparison with
the code: values are whitespace-trimmed before being compared. -/
def specRowsSimilar (g : Grid) (i1 i2 : Nat) : Bool :=
  4 * g.cols ≤
    5 * ((List.range g.cols).countP
      (fun c => decide (pyStrip (fillStr (g.cell i1 c)) = pyStrip (fillStr (g.cell i2 c)))))

/-- The row boundary test of extract_structural_skeleton: the first and
last rows are always boundaries; an interior row is a boundary when it
is similar to neither neighbour (the successor test keeps the source
guard on i + 1 being in range). -/
def rowIsBoundary (g : Grid) (i : Nat) : Bool :=
  if i = 0 || i = g.rows - 1 then true
  else
    let prev_similar := rowsSimilar g (i - 1) i
    let next_similar := if i + 1 < g.rows then rowsSimilar g i (i + 1) else false
    !prev_similar && !next_similar

/-- The column boundary test of extract_structural_skeleton: the first
and last columns are always boundaries; an interior column is a boundary
when it is dissimilar to at least one neighbour (inclusive or, unlike
the row rule). -/
def colIsBoundary (g : Grid) (j : Nat) : Bool :=
  if j = 0 || j = g.cols - 1 then true
  else
    let prev_similar := colsSimilar g (j - 1) j
    let next_similar := if j + 1 < g.cols then colsSimilar g j (j + 1) else false
    !prev_similar || !next_similar

/-- The set of structural anchor rows, as the ascending list of row
indices passing the boundary test. -/
def rowAnchors (g : Grid) : List Nat :=
  (List.range g.rows).filter (fun i => rowIsBoundary g i)

/-- The set of structural anchor columns. -/
def colAnchors (g : Grid) : List Nat :=
  (List.range g.cols).filter (fun j => colIsBoundary g j)

/-- The surviving row indices of extract_structural_skeleton at margin
k: the sorted union over every anchor r of the Python integer range
from max(0, r - k) to min(rows, r + k + 1); every element of that union
lies below rows, so it is the ascending filter of the row range.  The
margin is an integer, exactly as in the source, where no sign check is
performed. -/
def survivingRows (g : Grid) (k : Int) : List Nat :=
  (List.range g.rows).filter (fun x => (rowAnchors g).any (fun r =>
    decide (max 0 ((r : Int) - k) ≤ (x : Int) ∧
      (x : Int) < min (g.rows : Int) ((r : Int) + k + 1))))

/-- The surviving column indices of extract_structural_skeleton at
margin k. -/
def survivingCols (g : Grid) (k : Int) : List Nat :=
  (List.range g.cols).filter (fun x => (colAnchors g).any (fun c =>
    decide (max 0 ((c : Int) - k) ≤ (x : Int) ∧
      (x : Int) < min (g.cols : Int) ((c : Int) + k + 1))))

/-- extract_structural_skeleton from structural_anchors_demo.py: slice
the grid to the sorted surviving rows and columns. -/
def extract_structural_skeleton (g : Grid) (k : Int) : Grid :=
  { rows := (survivingRows g k).length
    cols := (survivingCols g k).length
    cell := fun i j =>
      match (survivingRows g k).get? i, (survivingCols g k).get? j with
      | some r, some c => g.cell r c
      | _, _ => none }

/-! ## Rule-based type recognition (data_format_aggregation_demo.py) -/

/-- Character class of the local part of the email pattern. -/
def localChar (c : Char) : Bool :=
  c.isAlpha || c.isDigit || c = '.' || c = '_' || c = '%' || c = '+' || c = '-'

/-- Character class of the domain part of the email pattern. -/
def domChar (c : Char) : Bool := c.isAlpha || c.isDigit || c = '.' || c = '-'

/-- Year pattern: exactly four digits whose leading pair is 19, 20 or
21. -/
def matchYear : List Char → Bool
  | [a, b, c, d] =>
    ((a = '1' && b = '9') || (a = '2' && b = '0') || (a = '2' && b = '1')) &&
      c.isDigit && d.isDigit
  | _ => false

/-- Domain-and-dot-and-TLD part of the email pattern: some split into a
non-empty run of domain characters, a dot, and at least two letters. -/
def domainMatch (l : List Char) : Bool :=
  (List.range (l.length + 1)).any (fun i =>
    let p := l.take i
    !p.isEmpty && p.all domChar &&
      (match l.drop i with
       | '.' :: t => decide (2 ≤ t.length) && t.all (fun c => c.isAlpha)
       | _ => false))

/-- Email pattern: non-empty local part up to the at sign, then the
domain pattern; the character classes exclude the at sign, so the split
at the first at sign is the only candidate. -/
def matchEmail (l : List Char) : Bool :=
  match l.span (fun c => c != '@') with
  | (loc, '@' :: dom) => !loc.isEmpty && loc.all localChar && domainMatch dom
  | _ => false

/-- Optional leading minus sign of the numeric patterns. -/
def stripNeg : List Char → List Char
  | '-' :: r => r
  | l => l

/-- Unsigned numeric body: one or more digits, optionally followed by a
dot and any number of digits. -/
def numBody (l : List Char) : Bool :=
  match l.span Char.isDigit with
  | (ds, rest) =>
    !ds.isEmpty &&
      (match rest with
       | [] => true
       | '.' :: t => t.all Char.isDigit
       | _ => false)

/-- Percentage pattern: optional sign, numeric body, trailing percent
sign. -/
def matchPercentage (l : List Char) : Bool :=
  let b := stripNeg l
  match b.getLast? with
  | some '%' => numBody b.dropLast
  | _ => false

/-- Currency symbols of the currency pattern. -/
def currencySym (c : Char) : Bool :=
  c = '$' || c = '£' || c = '€' || c = '¥' || c = '₹'

/-- Tail of the currency pattern after the leading digit group: comma
separated three-digit groups, then an optional two-decimal fraction. -/
def commaGroups : List Char → Bool
  | [] => true
  | ',' :: a :: b :: c :: rest => a.isDigit && b.isDigit && c.isDigit && commaGroups rest
  | ['.', a, b] => a.isDigit && b.isDigit
  | _ => false

/-- Currency pattern: a currency symbol, optional whitespace, optional
sign, one to three digits, comma groups and an optional two-decimal
fraction. -/
def matchCurrency (l : List Char) : Bool :=
  match l with
  | [] => false
  | c :: rest =>
    currencySym c &&
      (let b := stripNeg (rest.dropWhile isPySpace)
       match b.span Char.isDigit with
       | (ds, tail) =>
         decide (1 ≤ ds.length) && decide (ds.length ≤ 3) && commaGroups tail)

/-- Exponent of the scientific pattern: optional sign then at least one
digit. -/
def expPart (l : List Char) : Bool :=
  let b :=
    match l with
    | '+' :: r => r
    | '-' :: r => r
    | r => r
  !b.isEmpty && b.all Char.isDigit

/-- Scientific-notation pattern: optional sign, numeric body, an e of
either case, then a signed exponent. -/
def matchScientific (l : List Char) : Bool :=
  let b := stripNeg l
  match b.span (fun c => c != 'e' && c != 'E') with
  | (m, _ :: ex) => numBody m && expPart ex
  | _ => false

/-- Date separators. -/
def sepChar (c : Char) : Bool := c = '-' || c = '/'

/-- Date patterns: three digit groups joined by minus or slash, with
lengths 4/1-2/1-2, 1-2/1-2/4 or 1-2/1-2/2. -/
def matchDate (l : List Char) : Bool :=
  match l.span Char.isDigit with
  | (a, s1 :: r1) =>
    sepChar s1 &&
      (match r1.span Char.isDigit with
       | (b, s2 :: r2) =>
         sepChar s2 && r2.all Char.isDigit &&
           (decide (a.length = 4 ∧ 1 ≤ b.length ∧ b.length ≤ 2 ∧
              1 ≤ r2.length ∧ r2.length ≤ 2) ||
            decide (1 ≤ a.length ∧ a.length ≤ 2 ∧ 1 ≤ b.length ∧ b.length ≤ 2 ∧
              (r2.length = 4 ∨ r2.length = 2)))
       | _ => false)
  | _ => false

/-- Optional meridiem suffix of the time pattern: nothing, or optional
whitespace then AM or PM in either case. -/
def ampm (l : List Char) : Bool :=
  l.isEmpty ||
    (match l.dropWhile isPySpace with
     | [a, m] =>
       (a = 'A' || a = 'a' || a = 'P' || a = 'p') && (m = 'M' || m = 'm')
     | _ => false)

/-- Time pattern: one or two digit hour, colon, two-digit minutes,
optional colon and two-digit seconds, optional meridiem suffix. -/
def matchTime (l : List Char) : Bool :=
  match l.span Char.isDigit with
  | (h, ':' :: r1) =>
    decide (1 ≤ h.length ∧ h.length ≤ 2) &&
      (match r1.span Char.isDigit with
       | (m, rest) =>
         decide (m.length = 2) &&
           (match rest with
            | ':' :: r2 =>
              (match r2.span Char.isDigit with
               | (s, rest2) => decide (s.length = 2) && ampm rest2)
            | _ => ampm rest))
  | _ => false

/-- Float pattern: optional sign, digits, a dot, then at least one
digit. -/
def matchFloat (l : List Char) : Bool :=
  let b := stripNeg l
  match b.span Char.isDigit with
  | (d1, '.' :: d2) => !d1.isEmpty && !d2.isEmpty && d2.all Char.isDigit
  | _ => false

/-- Integer pattern: optional sign then at least one digit. -/
def matchInteger (l : List Char) : Bool :=
  let b := stripNeg l
  !b.isEmpty && b.all Char.isDigit

/-- recognize_data_type from data_format_aggregation_demo.py: missing or
blank values are Empty; otherwise the stripped value is matched against
the patterns in the fixed source order, with Others as the fallback. -/
def recognize_data_type (value : Option String) : String :=
  match value with
  | none => "Empty"
  | some s =>
    if pyStrip s = "" then "Empty"
    else
      let t := (pyStrip s).data
      if matchYear t then "Year"
      else if matchEmail t then "Email"
      else if matchPercentage t then "Percentage"
      else if matchCurrency t then "Currency"
      else if matchScientific t then "ScientificNotation"
      else if matchDate t then "Date"
      else if matchTime t then "Time"
      else if matchFloat t then "Float"
      else if matchInteger t then "Integer"
      else "Others"

/-- Cell categories, with the fallback carrying the literal value as
part of its identity, the way aggregate_by_data_format groups fallback
cells by their quoted text and labels them Text. -/
inductive Category where
  | Empty
  | Year
  | Integer
  | Float
  | Percentage
  | Scientific
  | Date
  | Time
  | Currency
  | Email
  | Text (value : String)
deriving DecidableEq

/-- The classification a cell receives through the aggregation step of
data_format_aggregation_demo.py: the recognizer label for the well
defined formats, and the value-carrying Text category for the Others
fallback. -/
def classify (value : Option String) : Category :=
  match recognize_data_type value with
  | "Empty" => Category.Empty
  | "Year" => Category.Year
  | "Email" => Category.Email
  | "Percentage" => Category.Percentage
  | "Currency" => Category.Currency
  | "ScientificNotation" => Category.Scientific
  | "Date" => Category.Date
  | "Time" => Category.Time
  | "Float" => Category.Float
  | "Integer" => Category.Integer
  | _ =>
    Category.Text
      (match value with
       | some s => s
       | none => "None")

/-! ## Concrete grids used by counterexamples and witnesses -/

/-- A 3 by 1 grid whose first cell carries leading whitespace; used to
separate trimmed from untrimmed similarity. -/
def trimGrid : Grid :=
  { rows := 3
    cols := 1
    cell := fun r _ => if r = 0 then some " x" else if r = 1 then some "x" else some "y" }

/-- A 2 by 2 grid with plain values, used as a generic witness input. -/
def wGrid : Grid :=
  { rows := 2
    cols := 2
    cell := fun r c =>
      if r = 0 && c = 0 then some "Q1"
      else if r = 1 && c = 0 then some "Q1"
      else if r = 0 && c = 1 then some ""
      else none }

/-- A 3 by 3 grid used to instantiate interior row and column indices
in witnesses. -/
def wGrid3 : Grid :=
  { rows := 3
    cols := 3
    cell := fun r c => if r = c then some "d" else some "o" }

/-! ## Lemmas about the range-merging sweep -/

/-- The string-emitting sweep is the run sweep followed by range
formatting. -/
theorem mergeLoop_eq_map (l : List Addr) (s e : Addr) :
    mergeLoop l s e = (mergeRunsAux l s e).map emitRun := by
  induction l generalizing s e with
  | nil => rfl
  | cons a rest ih =>
    simp only [mergeLoop, mergeRunsAux]
    by_cases h1 : a.col ≠ e.col
    · simp [h1, ih]
    · by_cases h2 : a.row = e.row + 1 <;> simp [h1, h2, ih]

/-- merge_cell_ranges in terms of the run descriptors. -/
theorem merge_cell_ranges_eq_runs (l : List Addr) :
    merge_cell_ranges l = String.intercalate "," ((mergeRuns l).map emitRun) := by
  unfold merge_cell_ranges mergeRuns
  cases sortAddrs l with
  | nil => rfl
  | cons a rest =>
    show String.intercalate "," (mergeLoop rest a a)
      = String.intercalate "," (List.map emitRun (mergeRunsAux rest a a))
    rw [mergeLoop_eq_map]

/-- A one-address run covers exactly its address. -/
theorem expandRun_self (a : Addr) : expandRun (a, a) = [a] := by
  simp [expandRun, Nat.add_sub_cancel_left, List.range'_one]

/-- Extending a run by its next consecutive row adds exactly that
address to the covered set. -/
theorem expandRun_extend (s e a : Addr) (hcol : a.col = s.col)
    (hrow : a.row = e.row + 1) (hse : s.row ≤ e.row) :
    expandRun (s, a) = expandRun (s, e) ++ [a] := by
  have hn : a.row + 1 - s.row = (e.row + 1 - s.row) + 1 := by omega
  have hlast : s.row + 1 * (e.row + 1 - s.row) = a.row := by omega
  simp only [expandRun, hn, List.range'_concat, hlast, List.map_append, List.map_cons,
    List.map_nil]
  have : (⟨s.col, a.row⟩ : Addr) = a := by
    cases a
    simp only at hcol
    simp [hcol]
  rw [this]

/-- The sweep loses nothing on any input: expanding the produced runs
gives back the pending run followed by the remaining input, whenever the
pending run is well formed.  No sortedness is needed, because a run is
only ever extended by exactly the next row of the same column. -/
theorem expandRuns_mergeRunsAux (l : List Addr) (s e : Addr) (hcol : s.col = e.col)
    (hrow : s.row ≤ e.row) :
    expandRuns (mergeRunsAux l s e) = expandRun (s, e) ++ l := by
  simp only [expandRuns]
  induction l generalizing s e with
  | nil => simp [mergeRunsAux]
  | cons a rest ih =>
    by_cases h1 : a.col ≠ e.col
    · simp only [mergeRunsAux, if_pos h1, List.flatMap_cons]
      rw [ih a a rfl (le_refl a.row), expandRun_self]
      simp
    · have hcol2 : a.col = e.col := not_not.mp h1
      by_cases h2 : a.row = e.row + 1
      · simp only [mergeRunsAux, if_neg h1, if_pos h2]
        rw [ih s a (hcol.trans hcol2.symm) (by omega),
          expandRun_extend s e a (hcol2.trans hcol.symm) h2 hrow]
        simp
      · simp only [mergeRunsAux, if_neg h1, if_neg h2, List.flatMap_cons]
        rw [ih a a rfl (le_refl a.row), expandRun_self]
        simp

/-- Expanding the merged runs recovers exactly the sorted address
list. -/
theorem expandRuns_mergeRuns (l : List Addr) :
    expandRuns (mergeRuns l) = sortAddrs l := by
  rcases h : sortAddrs l with _ | ⟨a, rest⟩
  · simp [mergeRuns, h, expandRuns]
  · simp only [mergeRuns, h]
    rw [expandRuns_mergeRunsAux rest a a rfl (le_refl a.row), expandRun_self]
    rfl

/-- Expanding the merged runs is a permutation of the input address
list. -/
theorem expandRuns_mergeRuns_perm (l : List Addr) :
    (expandRuns (mergeRuns l)).Perm l := by
  rw [expandRuns_mergeRuns]
  exact List.perm_insertionSort addrLe l

/-! ## Lemmas about stripping -/

/-- Dropping from an already dropped list drops nothing more. -/
theorem dropWhile_dropWhile {α : Type} (p : α → Bool) (l : List α) :
    (l.dropWhile p).dropWhile p = l.dropWhile p := by
  induction l with
  | nil => rfl
  | cons a t ih =>
    by_cases h : p a = true
    · simp [List.dropWhile_cons, h, ih]
    · simp [List.dropWhile_cons, h]

/-- dropWhile only ever shortens a list. -/
theorem length_dropWhile_le {α : Type} (p : α → Bool) (l : List α) :
    (l.dropWhile p).length ≤ l.length := by
  induction l with
  | nil => exact Nat.le_refl 0
  | cons a t ih =>
    by_cases h : p a = true
    · simp only [List.dropWhile_cons, h, if_pos, List.length_cons]
      omega
    · simp [List.dropWhile_cons, h]

/-- A list fixed by dropWhile starts with an element failing the
predicate, unless it is empty. -/
theorem head_false_of_dropWhile_fix {α : Type} (p : α → Bool) (a : α) (r : List α)
    (h : List.dropWhile p (a :: r) = a :: r) : p a = false := by
  by_cases hp : p a = true
  · rw [List.dropWhile_cons, if_pos hp] at h
    have h1 := length_dropWhile_le p r
    have h2 := congrArg List.length h
    simp only [List.length_cons] at h2
    omega
  · exact Bool.of_not_eq_true hp

/-- dropWhile fixes every list it produces. -/
theorem exists_append_dropWhile {α : Type} (p : α → Bool) (l : List α) :
    ∃ u, l = u ++ l.dropWhile p := by
  induction l with
  | nil => exact ⟨[], rfl⟩
  | cons a t ih =>
    by_cases h : p a = true
    · obtain ⟨u, hu⟩ := ih
      refine ⟨a :: u, ?_⟩
      rw [List.dropWhile_cons, if_pos h]
      simpa using hu
    · refine ⟨[], ?_⟩
      rw [List.dropWhile_cons, if_neg h]
      rfl

/-- If dropWhile fixes a list then it fixes every leading part of it. -/
theorem dropWhile_fix_of_append {α : Type} (p : α → Bool) (y z : List α)
    (h : List.dropWhile p (y ++ z) = y ++ z) : List.dropWhile p y = y := by
  cases y with
  | nil => rfl
  | cons a t =>
    have := head_false_of_dropWhile_fix p a (t ++ z) (by simpa using h)
    rw [List.dropWhile_cons, if_neg (by simp [this])]

/-- Python str.strip is idempotent. -/
theorem pyStrip_idem (s : String) : pyStrip (pyStrip s) = pyStrip s := by
  unfold pyStrip
  have hdata : (String.mk (((s.data.dropWhile isPySpace).reverse.dropWhile
      isPySpace).reverse)).data
      = ((s.data.dropWhile isPySpace).reverse.dropWhile isPySpace).reverse := rfl
  rw [hdata]
  set m := s.data.dropWhile isPySpace with hm
  set y := (m.reverse.dropWhile isPySpace).reverse with hy
  have hfix : List.dropWhile isPySpace y = y := by
    obtain ⟨u, hu⟩ := exists_append_dropWhile isPySpace m.reverse
    have hmfix : List.dropWhile isPySpace m = m := by rw [hm]; exact dropWhile_dropWhile _ _
    have hsplit : m = y ++ u.reverse := by
      have := congrArg List.reverse hu
      simpa [hy] using this
    exact dropWhile_fix_of_append isPySpace y u.reverse (by rw [← hsplit]; exact hmfix)
  rw [hfix, hy, List.reverse_reverse, dropWhile_dropWhile]

/-! ## Lemmas about the defaultdict index -/

/-- Inserting a pair either leaves the key list unchanged or appends the
new key at the end. -/
theorem idxKeys_addToIndex (idx : List (String × List Addr)) (v : String) (a : Addr) :
    idxKeys (addToIndex idx v a)
      = if v ∈ idxKeys idx then idxKeys idx else idxKeys idx ++ [v] := by
  induction idx with
  | nil => simp [addToIndex, idxKeys]
  | cons p t ih =>
    obtain ⟨w, as⟩ := p
    by_cases hw : w = v
    · subst hw
      simp [addToIndex, idxKeys]
    · have hw' : ¬v = w := fun h => hw h.symm
      have hstep : addToIndex ((w, as) :: t) v a = (w, as) :: addToIndex t v a := by
        simp [addToIndex, hw]
      rw [hstep]
      have hcons : idxKeys ((w, as) :: addToIndex t v a)
          = w :: idxKeys (addToIndex t v a) := rfl
      have hk : idxKeys ((w, as) :: t) = w :: idxKeys t := rfl
      rw [hcons, ih, hk]
      by_cases hv : v ∈ idxKeys t
      · rw [if_pos hv, if_pos (List.mem_cons_of_mem w hv)]
      · rw [if_neg hv, if_neg (by simp [List.mem_cons, hw', hv])]
        simp

/-- Inserting a pair appends the address to the looked-up list of its
key and leaves all other keys untouched. -/
theorem idxGet_addToIndex (idx : List (String × List Addr)) (v : String) (a : Addr)
    (u : String) :
    idxGet (addToIndex idx v a) u
      = if u = v then idxGet idx v ++ [a] else idxGet idx u := by
  induction idx with
  | nil =>
    by_cases hu : u = v
    · subst hu
      simp [addToIndex, idxGet]
    · have hu' : ¬v = u := fun h => hu h.symm
      simp [addToIndex, idxGet, hu, hu']
  | cons p t ih =>
    obtain ⟨w, bs⟩ := p
    by_cases hw : w = v
    · subst hw
      by_cases hu : u = w
      · subst hu
        simp [addToIndex, idxGet]
      · have hu' : ¬w = u := fun h => hu h.symm
        simp [addToIndex, idxGet, hu, hu']
    · have hstep : addToIndex ((w, bs) :: t) v a = (w, bs) :: addToIndex t v a := by
        simp [addToIndex, hw]
      rw [hstep]
      have hget : ∀ cs rest, idxGet ((w, cs) :: rest) u
          = if w = u then cs else idxGet rest u := fun cs rest => rfl
      rw [hget, ih]
      by_cases hu : u = v
      · subst hu
        have hw' : ¬w = u := hw
        rw [if_neg hw', if_pos rfl, if_pos rfl]
        have hgv : idxGet ((w, bs) :: t) u = idxGet t u := by
          simp [idxGet, hw']
        rw [hgv]
      · rw [if_neg hu, if_neg hu]
        have hgu : idxGet ((w, bs) :: t) u = if w = u then bs else idxGet t u := rfl
        rw [hgu]

/-- Folding scan entries into the index appends, per key, exactly the
addresses of the entries carrying that key. -/
theorem idxGet_foldl (l : List (String × Addr)) (idx : List (String × List Addr))
    (u : String) :
    idxGet (l.foldl (fun i p => addToIndex i p.1 p.2) idx) u
      = idxGet idx u ++ (l.filter (fun p => decide (p.1 = u))).map Prod.snd := by
  induction l generalizing idx with
  | nil => simp
  | cons p t ih =>
    simp only [List.foldl_cons, ih, idxGet_addToIndex]
    by_cases hu : u = p.1
    · subst hu
      simp [List.filter_cons, List.append_assoc]
    · have hu' : ¬p.1 = u := fun h => hu h.symm
      simp [List.filter_cons, hu, hu']

/-- Keys reached by the fold are the initial keys plus the scanned
values. -/
theorem mem_idxKeys_foldl (l : List (String × Addr)) (idx : List (String × List Addr))
    (v : String) :
    v ∈ idxKeys (l.foldl (fun i p => addToIndex i p.1 p.2) idx)
      ↔ v ∈ idxKeys idx ∨ v ∈ l.map Prod.fst := by
  induction l generalizing idx with
  | nil => simp
  | cons p t ih =>
    simp only [List.foldl_cons, ih, idxKeys_addToIndex, List.map_cons, List.mem_cons]
    by_cases hp : p.1 ∈ idxKeys idx
    · rw [if_pos hp]
      constructor
      · rintro (h | h)
        · exact Or.inl h
        · exact Or.inr (Or.inr h)
      · rintro (h | h | h)
        · exact Or.inl h
        · exact Or.inl (h.symm ▸ hp)
        · exact Or.inr h
    · rw [if_neg hp]
      simp only [List.mem_append, List.mem_singleton]
      tauto

/-- The fold preserves distinctness of the keys. -/
theorem nodup_idxKeys_foldl (l : List (String × Addr)) (idx : List (String × List Addr))
    (h : (idxKeys idx).Nodup) :
    (idxKeys (l.foldl (fun i p => addToIndex i p.1 p.2) idx)).Nodup := by
  induction l generalizing idx with
  | nil => exact h
  | cons p t ih =>
    simp only [List.foldl_cons]
    apply ih
    rw [idxKeys_addToIndex]
    by_cases hp : p.1 ∈ idxKeys idx
    · rwa [if_pos hp]
    · rw [if_neg hp]
      exact ((List.perm_append_singleton p.1 (idxKeys idx)).nodup_iff).mpr
        (List.nodup_cons.mpr ⟨hp, h⟩)

/-- With distinct keys, a pair belongs to the association list exactly
when its key does and its payload is the lookup result. -/
theorem mem_assoc_iff (idx : List (String × List Addr)) (h : (idxKeys idx).Nodup)
    (v : String) (as : List Addr) :
    (v, as) ∈ idx ↔ v ∈ idxKeys idx ∧ as = idxGet idx v := by
  induction idx with
  | nil => simp [idxKeys, idxGet]
  | cons p t ih =>
    obtain ⟨w, bs⟩ := p
    have hk : idxKeys ((w, bs) :: t) = w :: idxKeys t := rfl
    rw [hk] at h ⊢
    rw [List.nodup_cons] at h
    by_cases hv : v = w
    · subst hv
      have hg : idxGet ((v, bs) :: t) v = bs := by simp [idxGet]
      rw [hg]
      constructor
      · intro hmem
        rcases List.mem_cons.mp hmem with h1 | h1
        · exact ⟨List.mem_cons_self v (idxKeys t), (Prod.ext_iff.mp h1).2⟩
        · exact absurd (List.mem_map_of_mem Prod.fst h1) h.1
      · rintro ⟨_, rfl⟩
        exact List.mem_cons_self _ _
    · have hv' : ¬w = v := fun hh => hv hh.symm
      have hg : idxGet ((w, bs) :: t) v = idxGet t v := by simp [idxGet, hv']
      rw [hg]
      constructor
      · intro hmem
        rcases List.mem_cons.mp hmem with h1 | h1
        · exact absurd (congrArg Prod.fst h1) hv
        · obtain ⟨hm, he⟩ := (ih h.2).mp h1
          exact ⟨List.mem_cons_of_mem w hm, he⟩
      · rintro ⟨hm, he⟩
        rcases List.mem_cons.mp hm with h1 | h1
        · exact absurd h1 hv
        · exact List.mem_cons_of_mem _ ((ih h.2).mpr ⟨h1, he⟩)

/-! ## Lemmas about the grid scan -/

/-- Characterization of a successful cell entry. -/
theorem cellEntry_eq_some (g : Grid) (r c : Nat) (v : String) (a : Addr) :
    cellEntry g r c = some (v, a)
      ↔ g.cell r c = some v ∧ pyStrip v ≠ "" ∧ a = create_cell_address r c := by
  unfold cellEntry
  cases hcell : g.cell r c with
  | none => simp
  | some s =>
    by_cases hs : pyStrip s = ""
    · simp only [if_pos hs]
      constructor
      · intro h
        exact absurd h (by simp)
      · rintro ⟨h1, h2, _⟩
        have hsv : s = v := Option.some.inj h1
        exact absurd (hsv ▸ hs) h2
    · simp only [if_neg hs, Option.some.injEq, Prod.mk.injEq]
      constructor
      · rintro ⟨rfl, rfl⟩
        exact ⟨rfl, hs, rfl⟩
      · rintro ⟨h1, _, h3⟩
        exact ⟨h1, h3.symm⟩

/-- Characterization of scan membership. -/
theorem mem_scanEntries (g : Grid) (v : String) (a : Addr) :
    (v, a) ∈ scanEntries g
      ↔ ∃ r c, r < g.rows ∧ c < g.cols ∧ g.cell r c = some v ∧ pyStrip v ≠ "" ∧
          a = create_cell_address r c := by
  simp only [scanEntries, rowEntries, List.mem_flatMap, List.mem_filterMap,
    List.mem_range, cellEntry_eq_some]
  constructor
  · rintro ⟨r, hr, c, hc, h1, h2, h3⟩
    exact ⟨r, c, hr, hc, h1, h2, h3⟩
  · rintro ⟨r, c, hr, hc, h1, h2, h3⟩
    exact ⟨r, hr, c, hc, h1, h2, h3⟩

/-- The column letters of the first twenty-six columns have the expected
code points. -/
theorem colLabel_toNat (c : Nat) (h : c < 26) : (colLabel c).toNat = 65 + c := by
  interval_cases c <;> rfl

/-- Column labels are distinct across the first twenty-six columns. -/
theorem colLabel_inj (c1 c2 : Nat) (h1 : c1 < 26) (h2 : c2 < 26)
    (he : colLabel c1 = colLabel c2) : c1 = c2 := by
  have := congrArg Char.toNat he
  rw [colLabel_toNat c1 h1, colLabel_toNat c2 h2] at this
  omega

/-- Cell addresses determine their coordinates on single-letter
grids. -/
theorem create_cell_address_inj (r1 c1 r2 c2 : Nat) (h1 : c1 < 26) (h2 : c2 < 26)
    (he : create_cell_address r1 c1 = create_cell_address r2 c2) :
    r1 = r2 ∧ c1 = c2 := by
  have hcol : colLabel c1 = colLabel c2 := congrArg Addr.col he
  have hrow : r1 + 1 = r2 + 1 := congrArg Addr.row he
  exact ⟨by omega, colLabel_inj c1 c2 h1 h2 hcol⟩

/-- On a single-letter grid, an address determines the value of its
scan entry. -/
theorem scan_value_eq (g : Grid) (hc : g.cols ≤ 26) (v w : String) (a : Addr)
    (hv : (v, a) ∈ scanEntries g) (hw : (w, a) ∈ scanEntries g) : v = w := by
  obtain ⟨r1, c1, hr1, hc1, hcell1, _, ha1⟩ := (mem_scanEntries g v a).mp hv
  obtain ⟨r2, c2, hr2, hc2, hcell2, _, ha2⟩ := (mem_scanEntries g w a).mp hw
  obtain ⟨hr, hcc⟩ := create_cell_address_inj r1 c1 r2 c2 (by omega) (by omega)
    (by rw [← ha1, ← ha2])
  subst hr
  subst hcc
  rw [hcell1] at hcell2
  exact Option.some.inj hcell2

/-- The row number of every address scanned from one row is that row
plus one. -/
theorem row_of_mem_rowEntries (g : Grid) (r : Nat) (a : Addr)
    (h : a ∈ (rowEntries g r).map Prod.snd) : a.row = r + 1 := by
  obtain ⟨p, hp, hpa⟩ := List.mem_map.mp h
  obtain ⟨c, _, hc⟩ := List.mem_filterMap.mp hp
  obtain ⟨_, _, ha⟩ := (cellEntry_eq_some g r c p.1 p.2).mp
    (by rw [hc])
  rw [← hpa, ha]
  rfl

/-- On a single-letter grid, the scanned addresses are pairwise
distinct. -/
theorem nodup_scan_addrs (g : Grid) (hc : g.cols ≤ 26) :
    ((scanEntries g).map Prod.snd).Nodup := by
  unfold scanEntries
  rw [List.map_flatMap]
  rw [List.nodup_flatMap]
  constructor
  · intro r _
    show ((rowEntries g r).map Prod.snd).Nodup
    unfold rowEntries
    rw [List.map_filterMap]
    show List.Pairwise (fun a b => a ≠ b) _
    rw [List.pairwise_filterMap]
    have hp : List.Pairwise (fun c1 c2 => c1 < c2 ∧ c1 < g.cols ∧ c2 < g.cols)
        (List.range g.cols) := by
      refine List.Pairwise.imp_of_mem ?_ (List.pairwise_lt_range g.cols)
      intro c1 c2 hm1 hm2 hlt
      exact ⟨hlt, List.mem_range.mp hm1, List.mem_range.mp hm2⟩
    refine hp.imp ?_
    rintro c1 c2 ⟨hlt, hc1, hc2⟩ b hb b' hb'
    obtain ⟨p, hp1, hp2⟩ := Option.map_eq_some'.mp hb
    obtain ⟨q, hq1, hq2⟩ := Option.map_eq_some'.mp hb'
    obtain ⟨_, _, hpa⟩ := (cellEntry_eq_some g r c1 p.1 p.2).mp hp1
    obtain ⟨_, _, hqa⟩ := (cellEntry_eq_some g r c2 q.1 q.2).mp hq1
    intro hbb
    have : create_cell_address r c1 = create_cell_address r c2 := by
      rw [← hpa, ← hqa, hp2, hq2, hbb]
    obtain ⟨_, hcc⟩ := create_cell_address_inj r c1 r c2 (by omega) (by omega) this
    omega
  · refine List.Pairwise.imp ?_ (List.pairwise_lt_range g.rows)
    intro r1 r2 hlt
    intro a ha1 ha2
    have h1 := row_of_mem_rowEntries g r1 a ha1
    have h2 := row_of_mem_rowEntries g r2 a ha2
    omega

/-! ## The inverted index is lossless -/

/-- The defaultdict lookup is the per-value filter of the scan. -/
theorem idxGet_buildIndex (g : Grid) (v : String) :
    idxGet (buildIndex g) v = entryAddrs g v := by
  unfold buildIndex entryAddrs
  rw [idxGet_foldl]
  rfl

/-- The index keys are pairwise distinct. -/
theorem nodup_idxKeys_buildIndex (g : Grid) : (idxKeys (buildIndex g)).Nodup :=
  nodup_idxKeys_foldl _ _ (by simp [idxKeys])

/-- The index keys are exactly the scanned values. -/
theorem mem_idxKeys_buildIndex (g : Grid) (v : String) :
    v ∈ idxKeys (buildIndex g) ↔ v ∈ (scanEntries g).map Prod.fst := by
  unfold buildIndex
  rw [mem_idxKeys_foldl]
  simp [idxKeys]

/-- Entries of the index are exactly the scanned values, each with its
per-value filtered address list. -/
theorem mem_buildIndex (g : Grid) (v : String) (as : List Addr) :
    (v, as) ∈ buildIndex g
      ↔ v ∈ (scanEntries g).map Prod.fst ∧ as = entryAddrs g v := by
  rw [mem_assoc_iff _ (nodup_idxKeys_buildIndex g), mem_idxKeys_buildIndex,
    idxGet_buildIndex]

/-- Membership in an entry address list is scan membership for that
value. -/
theorem mem_entryAddrs (g : Grid) (v : String) (a : Addr) :
    a ∈ entryAddrs g v ↔ (v, a) ∈ scanEntries g := by
  unfold entryAddrs
  constructor
  · intro h
    obtain ⟨p, hp, hpa⟩ := List.mem_map.mp h
    rw [List.mem_filter] at hp
    have hv : p.1 = v := of_decide_eq_true hp.2
    have hpair : p = (v, a) := by
      obtain ⟨p1, p2⟩ := p
      simp only at hv hpa
      rw [hv, hpa]
    exact hpair ▸ hp.1
  · intro h
    refine List.mem_map.mpr ⟨(v, a), ?_, rfl⟩
    rw [List.mem_filter]
    exact ⟨h, by simp⟩

/-- On a single-letter grid each entry address list is duplicate
free. -/
theorem nodup_entryAddrs (g : Grid) (hc : g.cols ≤ 26) (v : String) :
    (entryAddrs g v).Nodup :=
  List.Nodup.sublist (List.Sublist.map Prod.snd (List.filter_sublist _))
    (nodup_scan_addrs g hc)

/-- Addresses expanded from an index entry are scan entries of the
entry value. -/
theorem mem_expand_entry (g : Grid) (p : String × List Addr) (hp : p ∈ buildIndex g)
    (a : Addr) (ha : a ∈ expandRuns (mergeRuns p.2)) : (p.1, a) ∈ scanEntries g := by
  obtain ⟨hkey, has⟩ := (mem_buildIndex g p.1 p.2).mp hp
  rw [has] at ha
  exact (mem_entryAddrs g p.1 a).mp ((expandRuns_mergeRuns_perm _).mem_iff.mp ha)

/-- Reconstructing from the inverted index yields exactly the scan. -/
theorem mem_reconstruct_iff_scan (g : Grid) (v : String) (a : Addr) :
    (v, a) ∈ reconstruct g ↔ (v, a) ∈ scanEntries g := by
  unfold reconstruct invertRuns
  simp only [List.mem_flatMap, List.mem_map]
  constructor
  · rintro ⟨e, ⟨p, hp, rfl⟩, hmem⟩
    obtain ⟨b, hb, hba⟩ := hmem
    have hv : p.1 = v := congrArg Prod.fst hba
    have hb' : b = a := congrArg Prod.snd hba
    rw [← hv, ← hb']
    exact mem_expand_entry g p hp b hb
  · intro h
    have hkey : v ∈ (scanEntries g).map Prod.fst := List.mem_map.mpr ⟨(v, a), h, rfl⟩
    have hpmem : (v, entryAddrs g v) ∈ buildIndex g :=
      (mem_buildIndex g v _).mpr ⟨hkey, rfl⟩
    refine ⟨(v, mergeRuns (entryAddrs g v)), ⟨(v, entryAddrs g v), hpmem, rfl⟩, a, ?_, rfl⟩
    exact (expandRuns_mergeRuns_perm _).mem_iff.mpr ((mem_entryAddrs g v a).mpr h)

/-- On a single-letter grid, no address is covered twice across the
reconstruction. -/
theorem nodup_reconstruct_addrs (g : Grid) (hc : g.cols ≤ 26) :
    ((reconstruct g).map Prod.snd).Nodup := by
  unfold reconstruct
  rw [List.map_flatMap]
  have hsimp : (fun e : String × List (Addr × Addr) =>
      ((expandRuns e.2).map (fun a => (e.1, a))).map Prod.snd)
      = fun e => expandRuns e.2 := by
    funext e
    rw [List.map_map]
    simp
  rw [hsimp, List.nodup_flatMap]
  constructor
  · intro e he
    unfold invertRuns at he
    obtain ⟨p, hp, rfl⟩ := List.mem_map.mp he
    obtain ⟨_, has⟩ := (mem_buildIndex g p.1 p.2).mp hp
    show (expandRuns (mergeRuns p.2)).Nodup
    rw [has]
    exact ((expandRuns_mergeRuns_perm _).nodup_iff).mpr (nodup_entryAddrs g hc p.1)
  · unfold invertRuns
    rw [List.pairwise_map]
    have hkeys : List.Pairwise (fun p q : String × List Addr => p.1 ≠ q.1)
        (buildIndex g) := by
      have hnd : List.Pairwise (fun a b : String => a ≠ b)
          ((buildIndex g).map Prod.fst) := nodup_idxKeys_buildIndex g
      rwa [List.pairwise_map] at hnd
    refine List.Pairwise.imp_of_mem ?_ hkeys
    intro p q hp hq hne
    intro a hap haq
    have h1 := mem_expand_entry g p hp a hap
    have h2 := mem_expand_entry g q hq a haq
    exact hne (scan_value_eq g hc p.1 q.1 a h1 h2)

/-- The entry values of the inverted index are pairwise distinct. -/
theorem nodup_invertRuns_keys (g : Grid) : ((invertRuns g).map Prod.fst).Nodup := by
  unfold invertRuns
  rw [List.map_map]
  exact nodup_idxKeys_buildIndex g

/-- The range strings of invert_index_with_ranges are the rendering of
the run descriptors. -/
theorem invert_eq_render (g : Grid) :
    invert_index_with_ranges g
      = (invertRuns g).map (fun e => (e.1, String.intercalate "," (e.2.map emitRun))) := by
  unfold invert_index_with_ranges invertRuns
  rw [List.map_map]
  have hfun : (fun p : String × List Addr => (p.1, merge_cell_ranges p.2))
      = (fun e : String × List (Addr × Addr) =>
          (e.1, String.intercalate "," (e.2.map emitRun)))
        ∘ (fun p : String × List Addr => (p.1, mergeRuns p.2)) := by
    funext p
    simp only [Function.comp_apply]
    rw [merge_cell_ranges_eq_runs]
  rw [hfun]

/-- Every entry value of the inverted index occurs in some non-blank
cell. -/
theorem invertRuns_value_occurs (g : Grid) (e : String × List (Addr × Addr))
    (he : e ∈ invertRuns g) :
    ∃ r c, r < g.rows ∧ c < g.cols ∧ g.cell r c = some e.1 ∧ pyStrip e.1 ≠ "" := by
  unfold invertRuns at he
  obtain ⟨p, hp, rfl⟩ := List.mem_map.mp he
  obtain ⟨hkey, _⟩ := (mem_buildIndex g p.1 p.2).mp hp
  obtain ⟨q, hq, hq1⟩ := List.mem_map.mp hkey
  obtain ⟨r, c, hr, hc, hcell, hne, _⟩ := (mem_scanEntries g q.1 q.2).mp hq
  refine ⟨r, c, hr, hc, ?_, ?_⟩
  · rw [← hq1]
    exact hcell
  · rw [← hq1]
    exact hne

/-! ## Lemmas about anchors and the skeleton -/

/-- Anchor membership is the boundary test inside the row range. -/
theorem mem_rowAnchors_iff (g : Grid) (i : Nat) :
    i ∈ rowAnchors g ↔ i < g.rows ∧ rowIsBoundary g i = true := by
  simp [rowAnchors, List.mem_filter, List.mem_range, and_comm]

/-- Anchor membership is the boundary test inside the column range. -/
theorem mem_colAnchors_iff (g : Grid) (j : Nat) :
    j ∈ colAnchors g ↔ j < g.cols ∧ colIsBoundary g j = true := by
  simp [colAnchors, List.mem_filter, List.mem_range, and_comm]

/-- Row zero is always an anchor of a non-empty grid. -/
theorem zero_mem_rowAnchors (g : Grid) (h : 0 < g.rows) : 0 ∈ rowAnchors g := by
  rw [mem_rowAnchors_iff]
  exact ⟨h, by simp [rowIsBoundary]⟩

/-- The last row is always an anchor of a non-empty grid. -/
theorem last_mem_rowAnchors (g : Grid) (h : 0 < g.rows) : g.rows - 1 ∈ rowAnchors g := by
  rw [mem_rowAnchors_iff]
  exact ⟨by omega, by simp [rowIsBoundary]⟩

/-- Column zero is always an anchor of a non-empty grid. -/
theorem zero_mem_colAnchors (g : Grid) (h : 0 < g.cols) : 0 ∈ colAnchors g := by
  rw [mem_colAnchors_iff]
  exact ⟨h, by simp [colIsBoundary]⟩

/-- The last column is always an anchor of a non-empty grid. -/
theorem last_mem_colAnchors (g : Grid) (h : 0 < g.cols) : g.cols - 1 ∈ colAnchors g := by
  rw [mem_colAnchors_iff]
  exact ⟨by omega, by simp [colIsBoundary]⟩

/-- Characterization of survival of a row index at margin k. -/
theorem mem_survivingRows (g : Grid) (k : Int) (x : Nat) :
    x ∈ survivingRows g k ↔ x < g.rows ∧ ∃ r ∈ rowAnchors g,
      max 0 ((r : Int) - k) ≤ (x : Int) ∧
        (x : Int) < min (g.rows : Int) ((r : Int) + k + 1) := by
  simp [survivingRows, List.mem_filter, List.mem_range, List.any_eq_true, and_comm]

/-- Characterization of survival of a column index at margin k. -/
theorem mem_survivingCols (g : Grid) (k : Int) (x : Nat) :
    x ∈ survivingCols g k ↔ x < g.cols ∧ ∃ c ∈ colAnchors g,
      max 0 ((c : Int) - k) ≤ (x : Int) ∧
        (x : Int) < min (g.cols : Int) ((c : Int) + k + 1) := by
  simp [survivingCols, List.mem_filter, List.mem_range, List.any_eq_true, and_comm]

/-! ## Claim theorems -/

/-- C1: for every grid with single-letter column addresses, the inverted
index of invert_index_with_ranges is lossless: its range strings render
the run descriptors, expanding every run descriptor of every entry and
attributing the covered addresses to the entry value reproduces exactly
the non-empty (non-missing, non-blank) cells with their literal values,
no address is covered twice (entry coordinate sets are pairwise
disjoint), no value has two entries, and no entry exists for empty cells
or values occurring zero times. -/
theorem C1_inverted_index_lossless (g : Grid) (hc : g.cols ≤ 26) : LosslessIndex g := by
  refine ⟨invert_eq_render g, ?_, nodup_reconstruct_addrs g hc,
    nodup_invertRuns_keys g, fun e he => invertRuns_value_occurs g e he⟩
  intro v a
  rw [mem_reconstruct_iff_scan, mem_scanEntries]

/-- Witness for C1 at a concrete grid. -/
theorem C1_witness : wGrid.cols ≤ 26 ∧ LosslessIndex wGrid :=
  ⟨by decide, C1_inverted_index_lossless wGrid (by decide)⟩

/-- C2: the merger joins consecutive same-column rows only: the gapped
column input A1 A2 A3 A5 yields the ranges A1:A3 and A5, and the
cross-column input A1 B1 A2 yields A1:A2 and B1, never merging across
the column boundary. -/
theorem C2_merge_consecutive_examples :
    merge_cell_ranges [⟨'A', 1⟩, ⟨'A', 2⟩, ⟨'A', 3⟩, ⟨'A', 5⟩] = "A1:A3,A5"
    ∧ merge_cell_ranges [⟨'A', 1⟩, ⟨'B', 1⟩, ⟨'A', 2⟩] = "A1:A2,B1" := by
  constructor
  · decide
  · decide

/-- C4: in any grid with at least one row and one column, the first and
last rows and the first and last columns are anchors, whatever the cell
contents. -/
theorem C4_boundary_anchors (g : Grid) (hr : 0 < g.rows) (hc : 0 < g.cols) :
    0 ∈ rowAnchors g ∧ g.rows - 1 ∈ rowAnchors g ∧
    0 ∈ colAnchors g ∧ g.cols - 1 ∈ colAnchors g :=
  ⟨zero_mem_rowAnchors g hr, last_mem_rowAnchors g hr,
    zero_mem_colAnchors g hc, last_mem_colAnchors g hc⟩

/-- Witness for C4 at a concrete grid. -/
theorem C4_witness :
    0 < wGrid.rows ∧ 0 < wGrid.cols ∧
    (0 ∈ rowAnchors wGrid ∧ wGrid.rows - 1 ∈ rowAnchors wGrid ∧
      0 ∈ colAnchors wGrid ∧ wGrid.cols - 1 ∈ colAnchors wGrid) :=
  ⟨by decide, by decide, C4_boundary_anchors wGrid (by decide) (by decide)⟩

/-- C5: for a fixed grid, the surviving rows and columns grow
monotonically with the margin: anything surviving at margin k1 survives
at any larger margin k2. -/
theorem C5_margin_monotone (g : Grid) (k1 k2 : Int) (h0 : 0 ≤ k1) (h12 : k1 ≤ k2) :
    (∀ x ∈ survivingRows g k1, x ∈ survivingRows g k2)
    ∧ (∀ x ∈ survivingCols g k1, x ∈ survivingCols g k2) := by
  constructor
  · intro x hx
    rw [mem_survivingRows] at hx ⊢
    obtain ⟨hxr, r, hr, hb1, hb2⟩ := hx
    refine ⟨hxr, r, hr, ?_, ?_⟩
    · rw [max_le_iff] at hb1 ⊢
      omega
    · rw [lt_min_iff] at hb2 ⊢
      omega
  · intro x hx
    rw [mem_survivingCols] at hx ⊢
    obtain ⟨hxc, c, hcm, hb1, hb2⟩ := hx
    refine ⟨hxc, c, hcm, ?_, ?_⟩
    · rw [max_le_iff] at hb1 ⊢
      omega
    · rw [lt_min_iff] at hb2 ⊢
      omega

/-- Witness for C5 at a concrete grid and concrete margins. -/
theorem C5_witness :
    (0 : Int) ≤ 0 ∧ (0 : Int) ≤ 1 ∧
    ((∀ x ∈ survivingRows wGrid 0, x ∈ survivingRows wGrid 1)
      ∧ (∀ x ∈ survivingCols wGrid 0, x ∈ survivingCols wGrid 1)) :=
  ⟨by decide, by decide, C5_margin_monotone wGrid 0 1 (by decide) (by decide)⟩

/-- C6 counterexample: merge_cell_ranges does not de-duplicate its
input; the duplicated input A1 A1 A2 produces the ranges A1 and A1:A2,
covering A1 twice, while the de-duplicated input produces A1:A2
alone. -/
theorem C6_counterexample :
    merge_cell_ranges [⟨'A', 1⟩, ⟨'A', 1⟩, ⟨'A', 2⟩] = "A1,A1:A2"
    ∧ merge_cell_ranges [⟨'A', 1⟩, ⟨'A', 2⟩] = "A1:A2"
    ∧ merge_cell_ranges [⟨'A', 1⟩, ⟨'A', 1⟩, ⟨'A', 2⟩]
        ≠ merge_cell_ranges (([⟨'A', 1⟩, ⟨'A', 1⟩, ⟨'A', 2⟩] : List Addr).dedup)
    ∧ expandRuns (mergeRuns [⟨'A', 1⟩, ⟨'A', 1⟩, ⟨'A', 2⟩])
        = [⟨'A', 1⟩, ⟨'A', 1⟩, ⟨'A', 2⟩] := by
  refine ⟨by decide, by decide, by decide, by decide⟩

/-- C6 amended: merge_cell_ranges performs no de-duplication (a
duplicated coordinate is covered twice, as the counterexample shows);
on duplicate-free input, which is the only input its caller produces,
no coordinate is covered more than once across the emitted ranges and
the output agrees with the output on the de-duplicated input. -/
theorem C6_nodup_no_double_cover (l : List Addr) (h : l.Nodup) :
    (expandRuns (mergeRuns l)).Nodup
    ∧ merge_cell_ranges l = merge_cell_ranges l.dedup := by
  constructor
  · exact ((expandRuns_mergeRuns_perm l).nodup_iff).mpr h
  · rw [List.dedup_eq_self.mpr h]

/-- Witness for the amended C6 at a concrete duplicate-free input. -/
theorem C6_witness :
    ([⟨'A', 1⟩, ⟨'A', 2⟩] : List Addr).Nodup
    ∧ ((expandRuns (mergeRuns [⟨'A', 1⟩, ⟨'A', 2⟩])).Nodup
      ∧ merge_cell_ranges [⟨'A', 1⟩, ⟨'A', 2⟩]
          = merge_cell_ranges ([⟨'A', 1⟩, ⟨'A', 2⟩] : List Addr).dedup) :=
  ⟨by decide, C6_nodup_no_double_cover [⟨'A', 1⟩, ⟨'A', 2⟩] (by decide)⟩

/-- C3 counterexample: the code compares raw cell values, not trimmed
ones.  In trimGrid the interior row 1 is trim-similar to its
predecessor (the values " x" and "x" agree after stripping), so under
the claimed trimmed similarity it would not be an anchor, yet the code
marks it as one because the raw strings differ. -/
theorem C3_counterexample :
    1 ∈ rowAnchors trimGrid
    ∧ specRowsSimilar trimGrid 0 1 = true
    ∧ rowsSimilar trimGrid 0 1 = false := by
  refine ⟨by decide, by decide, by decide⟩

/-- C3 amended: an interior row is an anchor iff it is similar to
neither neighbour, and an interior column is an anchor iff it is
dissimilar to at least one neighbour, where similarity compares the raw
values (missing read as the empty string, no whitespace trimming) and
holds when the matching fraction reaches 0.8. -/
theorem C3_anchor_rules (g : Grid) (i j : Nat) (hi1 : 0 < i) (hi2 : i < g.rows - 1)
    (hj1 : 0 < j) (hj2 : j < g.cols - 1) :
    (i ∈ rowAnchors g
      ↔ (rowsSimilar g (i - 1) i = false ∧ rowsSimilar g i (i + 1) = false))
    ∧ (j ∈ colAnchors g
      ↔ (colsSimilar g (j - 1) j = false ∨ colsSimilar g j (j + 1) = false)) := by
  constructor
  · rw [mem_rowAnchors_iff]
    have hg : i + 1 < g.rows := by omega
    have hne1 : ¬(i = 0) := by omega
    have hne2 : ¬(i = g.rows - 1) := by omega
    have hlt : i < g.rows := by omega
    simp [rowIsBoundary, hne1, hne2, hg, hlt, Bool.and_eq_true, Bool.not_eq_true']
  · rw [mem_colAnchors_iff]
    have hg : j + 1 < g.cols := by omega
    have hne1 : ¬(j = 0) := by omega
    have hne2 : ¬(j = g.cols - 1) := by omega
    have hlt : j < g.cols := by omega
    simp [colIsBoundary, hne1, hne2, hg, hlt, Bool.or_eq_true, Bool.not_eq_true']

/-- Witness for the amended C3 at interior indices of a concrete
grid. -/
theorem C3_witness :
    0 < 1 ∧ 1 < wGrid3.rows - 1 ∧ 0 < 1 ∧ 1 < wGrid3.cols - 1 ∧
    ((1 ∈ rowAnchors wGrid3
        ↔ (rowsSimilar wGrid3 0 1 = false ∧ rowsSimilar wGrid3 1 2 = false))
      ∧ (1 ∈ colAnchors wGrid3
        ↔ (colsSimilar wGrid3 0 1 = false ∨ colsSimilar wGrid3 1 2 = false))) :=
  ⟨by decide, by decide, by decide, by decide,
    C3_anchor_rules wGrid3 1 1 (by decide) (by decide) (by decide) (by decide)⟩

/-- C7 counterexample: extract_structural_skeleton performs no margin
validation; at the negative margin -1 it silently returns an empty
skeleton instead of failing. -/
theorem C7_counterexample :
    (extract_structural_skeleton trimGrid (-1)).rows = 0
    ∧ (extract_structural_skeleton trimGrid (-1)).cols = 0
    ∧ survivingRows trimGrid (-1) = [] := by
  refine ⟨by decide, by decide, by decide⟩

/-- C7 amended: a negative margin is not rejected: the function
proceeds normally, every expansion range is empty because its upper
bound lies below its lower bound, and the returned skeleton has no rows
and no columns. -/
theorem C7_negative_margin_empty (g : Grid) (k : Int) (hk : k ≤ -1) :
    survivingRows g k = [] ∧ survivingCols g k = []
    ∧ (extract_structural_skeleton g k).rows = 0
    ∧ (extract_structural_skeleton g k).cols = 0 := by
  have hrows : survivingRows g k = [] := by
    rw [survivingRows, List.filter_eq_nil_iff]
    intro x _
    intro hany
    obtain ⟨r, _, hcond⟩ := List.any_eq_true.mp hany
    rw [decide_eq_true_eq] at hcond
    obtain ⟨h1, h2⟩ := hcond
    rw [max_le_iff] at h1
    rw [lt_min_iff] at h2
    omega
  have hcols : survivingCols g k = [] := by
    rw [survivingCols, List.filter_eq_nil_iff]
    intro x _
    intro hany
    obtain ⟨c, _, hcond⟩ := List.any_eq_true.mp hany
    rw [decide_eq_true_eq] at hcond
    obtain ⟨h1, h2⟩ := hcond
    rw [max_le_iff] at h1
    rw [lt_min_iff] at h2
    omega
  refine ⟨hrows, hcols, ?_, ?_⟩
  · show (survivingRows g k).length = 0
    rw [hrows]
    rfl
  · show (survivingCols g k).length = 0
    rw [hcols]
    rfl

/-- Witness for the amended C7 at a concrete grid and margin. -/
theorem C7_witness :
    (-1 : Int) ≤ -1 ∧
    (survivingRows wGrid (-1) = [] ∧ survivingCols wGrid (-1) = []
      ∧ (extract_structural_skeleton wGrid (-1)).rows = 0
      ∧ (extract_structural_skeleton wGrid (-1)).cols = 0) :=
  ⟨by decide, C7_negative_margin_empty wGrid (-1) (by decide)⟩

/-- C10: on a non-empty grid with a non-negative margin, index zero
survives on both axes, the surviving sets are non-empty, and every
survivor lies inside the grid bounds, so the skeleton keeps at least
one row and one column. -/
theorem C10_skeleton_nonempty (g : Grid) (hr : 0 < g.rows) (hc : 0 < g.cols)
    (k : Int) (hk : 0 ≤ k) :
    0 ∈ survivingRows g k ∧ 0 ∈ survivingCols g k
    ∧ survivingRows g k ≠ [] ∧ survivingCols g k ≠ []
    ∧ (∀ x ∈ survivingRows g k, x < g.rows) ∧ (∀ x ∈ survivingCols g k, x < g.cols) := by
  have h0r : 0 ∈ survivingRows g k := by
    rw [mem_survivingRows]
    refine ⟨hr, 0, zero_mem_rowAnchors g hr, ?_, ?_⟩
    · rw [max_le_iff]
      omega
    · rw [lt_min_iff]
      omega
  have h0c : 0 ∈ survivingCols g k := by
    rw [mem_survivingCols]
    refine ⟨hc, 0, zero_mem_colAnchors g hc, ?_, ?_⟩
    · rw [max_le_iff]
      omega
    · rw [lt_min_iff]
      omega
  refine ⟨h0r, h0c, List.ne_nil_of_mem h0r, List.ne_nil_of_mem h0c, ?_, ?_⟩
  · intro x hx
    exact ((mem_survivingRows g k x).mp hx).1
  · intro x hx
    exact ((mem_survivingCols g k x).mp hx).1

/-- Witness for C10 at a concrete grid and margin. -/
theorem C10_witness :
    0 < wGrid.rows ∧ 0 < wGrid.cols ∧ (0 : Int) ≤ 0 ∧
    (0 ∈ survivingRows wGrid 0 ∧ 0 ∈ survivingCols wGrid 0
      ∧ survivingRows wGrid 0 ≠ [] ∧ survivingCols wGrid 0 ≠ []
      ∧ (∀ x ∈ survivingRows wGrid 0, x < wGrid.rows)
      ∧ (∀ x ∈ survivingCols wGrid 0, x < wGrid.cols)) :=
  ⟨by decide, by decide, by decide,
    C10_skeleton_nonempty wGrid (by decide) (by decide) 0 (by decide)⟩

/-- C8: the classifier tries its rules in the fixed source order with
the value-carrying text category as fallback; the sample values land in
the documented categories, and 2024 matches the integer pattern as well
yet is classified as a year because the year rule comes first. -/
theorem C8_classifier_precedence :
    classify (some "2024") = Category.Year
    ∧ matchInteger ("2024").data = true
    ∧ classify (some "2024.5") = Category.Float
    ∧ classify (some "75%") = Category.Percentage
    ∧ classify (some "$1,234.56") = Category.Currency
    ∧ classify (some "user@x.com") = Category.Email
    ∧ classify (some "") = Category.Empty
    ∧ classify none = Category.Empty
    ∧ classify (some "hello") = Category.Text "hello"
    ∧ recognize_data_type (some "hello") = "Others" := by
  refine ⟨by decide, by decide, by decide, by decide, by decide, by decide, by decide,
    by decide, by decide, by decide⟩

/-- C9: the recognizer matches patterns against the stripped value, so
stripping the input never changes the resulting category; in particular
a padded integer is still recognized as an integer. -/
theorem C9_trim_invariant :
    (∀ s : String, recognize_data_type (some s) = recognize_data_type (some (pyStrip s)))
    ∧ recognize_data_type (some "  42  ") = "Integer" := by
  constructor
  · intro s
    simp only [recognize_data_type, pyStrip_idem]
  · decide
